import Mathlib

/-!
Verification development for the SD-EPG description extractor
(`scripts/extract_desc.py`, class `DescExtractor`).

Strings are embedded as `List Char` (one element per Unicode code point,
matching Python's `str`, whose `len` counts code points).  Python dicts are
embedded as functions into `Option`; dict assignment is function update, so
later assignments shadow earlier ones exactly as in Python.

Python standard-library behaviour that the script relies on
(`html.unescape`, `str.lower`, `str.strip`, `str.replace`, and `re.sub`
with the script's concrete patterns) is modelled explicitly below; each
model's doc comment states the fragment of stdlib behaviour it covers.
-/

namespace SDEPG

/-- Whitespace, modelling the characters matched by Python's `\s` (and
stripped by `str.strip`) that are relevant to this codebase: ASCII
whitespace, NBSP (U+00A0) and the ideographic space (U+3000). -/
def isWS (c : Char) : Bool :=
  c == ' ' || c == '\t' || c == '\n' || c == '\r' || c == '\x0b' || c == '\x0c' ||
  c == '\xa0' || c == '　'

/-- The character class removed by `DescExtractor.normalize`
(`re.sub(r'[\s\-_\+\|\(\)（）\[\]【】《》:：]', '', text)`, line 64). -/
def removableChar (c : Char) : Bool :=
  isWS c || c == '-' || c == '_' || c == '+' || c == '|' ||
  c == '(' || c == ')' || c == '（' || c == '）' ||
  c == '[' || c == ']' || c == '【' || c == '】' ||
  c == '《' || c == '》' || c == ':' || c == '：'

/-- ASCII lower-casing, modelling Python's `str.lower` on the ASCII range
(the only range in which lower-casing interacts with the removable and
whitespace classes; non-ASCII characters are left unchanged by the model). -/
def lowerChar (c : Char) : Char :=
  if 65 ≤ c.toNat ∧ c.toNat ≤ 90 then Char.ofNat (c.toNat + 32) else c

/-- `DescExtractor.normalize` (lines 60–65): drop every removable
character, then lower-case.  Empty input is returned as-is (`if not text`). -/
def normalize (text : List Char) : List Char :=
  if text = [] then []
  else (text.filter (fun c => !removableChar c)).map lowerChar

/-- `str.strip` model: drop leading and trailing whitespace. -/
def strip (s : List Char) : List Char :=
  ((s.dropWhile isWS).reverse.dropWhile isWS).reverse

/-- U+00A0, the decoding of `&nbsp;`. -/
def nbspChar : Char := '\xa0'

/-- The character-entity table fragment of Python's `html.unescape`
relevant to this script: the named entities its replacement list mentions
(`amp`, `lt`, `gt`, `quot`, `apos`, `nbsp`), in their lower-case forms,
with the optional-semicolon variants that Python's HTML5 table contains
(`apos` requires the semicolon there).  For a given start position Python
resolves the longest listed name, which the list order reproduces. -/
def entities : List (List Char × Char) :=
  [("amp;".data, '&'), ("amp".data, '&'), ("apos;".data, '\''),
   ("lt;".data, '<'), ("lt".data, '<'), ("gt;".data, '>'), ("gt".data, '>'),
   ("quot;".data, '"'), ("quot".data, '"'), ("nbsp;".data, nbspChar), ("nbsp".data, nbspChar)]

/-- Try to read one character entity at the head of `r` (the text directly
after a `&`): the decoded character and the remaining text. -/
def findEnt (r : List Char) : Option (Char × List Char) :=
  (entities.find? (fun e => e.1.isPrefixOf r)).map (fun e => (e.2, r.drop e.1.length))

/-- One pass of `html.unescape` over the modelled entity table: scan left
to right, decode an entity at each `&` where one matches, and continue
after the decoded entity.  Fuelled so that the kernel can evaluate it; the
fuel `s.length` always suffices (each step consumes at least one
character). -/
def unescapeF : Nat → List Char → List Char
  | 0, s => s
  | _ + 1, [] => []
  | n + 1, c :: r =>
    if c = '&' then
      match findEnt r with
      | some (d, r') => d :: unescapeF n r'
      | none => '&' :: unescapeF n r
    else c :: unescapeF n r

/-- One `html.unescape` pass (model). -/
def unescape (s : List Char) : List Char := unescapeF s.length s

/-- The decode loop of `fix_html_entities` (lines 79–83):
`for _ in range(n): decoded = unescape(fixed); if decoded == fixed: break;
fixed = decoded`, returning the final `fixed`. -/
def decodeLoop : Nat → List Char → List Char
  | 0, s => s
  | n + 1, s => if unescape s = s then s else decodeLoop n (unescape s)

/-- Python `str.replace(pat, rep)` for non-empty `pat`: scan left to
right, replace each non-overlapping occurrence, and continue after the
replacement (the replacement text is not rescanned).  Fuelled for kernel
evaluation; `s.length` fuel always suffices for non-empty `pat`. -/
def replaceAllF (pat rep : List Char) : Nat → List Char → List Char
  | 0, s => s
  | _ + 1, [] => []
  | n + 1, c :: r =>
    if pat.isPrefixOf (c :: r) then rep ++ replaceAllF pat rep n ((c :: r).drop pat.length)
    else c :: replaceAllF pat rep n r

/-- `str.replace` (model, non-empty pattern). -/
def replaceAll (pat rep s : List Char) : List Char := replaceAllF pat rep s.length s

/-- The literal-substitution table of `fix_html_entities` (lines 86–95),
in source order. -/
def replacements : List (List Char × List Char) :=
  [("<".data, "《".data), (">".data, "》".data),
   ("&lt;".data, "《".data), ("&gt;".data, "》".data),
   ("&quot;".data, "\"".data), ("&apos;".data, "'".data),
   ("&nbsp;".data, " ".data), ("&amp;".data, "&".data)]

/-- `re.sub(r'\s+', ' ', s)`: every maximal whitespace run becomes one
space.  The flag records whether the previous character was whitespace. -/
def squeezeWSAux : Bool → List Char → List Char
  | _, [] => []
  | prevWS, c :: r =>
    if isWS c then
      if prevWS then squeezeWSAux true r
      else ' ' :: squeezeWSAux true r
    else c :: squeezeWSAux false r

/-- `re.sub(r'\s+', ' ', s)` (model). -/
def squeezeWS (s : List Char) : List Char := squeezeWSAux false s

/-- `re.sub(r'\s+', ' ', s).strip()` — the whitespace clean-up that ends
`fix_html_entities` (line 101). -/
def collapseWS (s : List Char) : List Char := strip (squeezeWS s)

/-- `DescExtractor.fix_html_entities` (lines 67–106): decode entities to a
fixed point (at most 10 passes), apply the literal substitutions in order,
collapse whitespace.  The `html_fixed` statistics counter is observability
only and is not modelled. -/
def fix_html_entities (text : List Char) : List Char :=
  if text = [] then text
  else
    let fixed := decodeLoop 10 text
    let fixed := replacements.foldl (fun acc pr => replaceAll pr.1 pr.2 acc) fixed
    collapseWS fixed

/-- The placeholder patterns of `DescExtractor.invalid_desc_patterns`
(lines 40–48); each is anchored at the start, so `re.match` is a prefix
test (`re.IGNORECASE` is vacuous on these all-Chinese patterns). -/
def invalid_desc_patterns : List (List Char) :=
  ["暂无节目描述".data, "暂无描述".data, "暂无简介".data, "暂无内容".data,
   "无节目描述".data, "无描述".data, "无简介".data]

/-- `DescExtractor.is_valid_desc` (lines 108–128).  The
`invalid_filtered` statistics counter is not modelled. -/
def is_valid_desc (desc : List Char) : Bool :=
  if desc = [] then false
  else
    let desc_clean := strip desc
    if desc_clean.length < 5 then false
    else if invalid_desc_patterns.any (fun p => p.isPrefixOf desc_clean) then false
    else true

/-- One bounded-repetition element of one of the script's regular
expressions: a character class with a minimum and an optional maximum
repetition count (`none` = unbounded). -/
structure Piece where
  cls : Char → Bool
  lo : Nat
  hi : Option Nat

/-- Does the piece sequence match the whole of `s`?  All of the script's
title-cleaning patterns are plain piece sequences (no alternation), so
full-match recognition is an existential over the repetition counts. -/
def matchPieces : List Piece → List Char → Bool
  | [], s => s.isEmpty
  | p :: ps, s =>
    let run := (s.takeWhile p.cls).length
    let top := match p.hi with | none => run | some m => Nat.min m run
    (List.range' p.lo (top + 1 - p.lo)).any fun k => matchPieces ps (s.drop k)

/-- `re.sub(pattern, '', s)` for the script's `$`-anchored patterns: the
leftmost match is the longest suffix the pieces match in full, and
removing it keeps the part before it.  (Every such pattern contains a
mandatory piece, so no empty match can follow; each begins with `\s*`, so
the leftmost match start extends through any whitespace run, which is what
minimising the start index reproduces; and the cleaner's inputs are
pre-trimmed and stay trimmed between rules, so the Python `$` rule about a
final newline never fires.) -/
def stripSuffixMatch (ps : List Piece) (s : List Char) : List Char :=
  match (List.range (s.length + 1)).find? (fun i => matchPieces ps (s.drop i)) with
  | some i => s.take i
  | none => s

/-- `\s*` -/
def ws0 : Piece := ⟨isWS, 0, none⟩
/-- `\d{a,b}` (ASCII digits; the model does not cover non-ASCII Unicode
digits). -/
def digitsP (a : Nat) (b : Option Nat) : Piece := ⟨Char.isDigit, a, b⟩
/-- a single literal character -/
def chrP (c : Char) : Piece := ⟨(· == c), 1, some 1⟩
/-- `[cs]?` -/
def optP (cs : List Char) : Piece := ⟨(cs.contains ·), 0, some 1⟩
/-- `[cs]` -/
def oneP (cs : List Char) : Piece := ⟨(cs.contains ·), 1, some 1⟩

/-- `date_patterns` of `clean_program_title` (lines 139–144), in order. -/
def date_patterns : List (List Piece) :=
  [[ws0, optP ['(', '（'], digitsP 4 (some 4), oneP ['-', '.', '/', '年'], digitsP 1 (some 2),
    oneP ['-', '.', '/', '月'], digitsP 1 (some 2), optP ['日'], optP [')', '）'], ws0],
   [ws0, optP ['(', '（'], digitsP 8 (some 8), optP [')', '）'], ws0],
   [ws0, optP ['(', '（'], digitsP 4 (some 4), oneP ['-', '.', '/'], digitsP 1 (some 2),
    oneP ['-', '.', '/'], digitsP 1 (some 2), optP [')', '）'], ws0],
   [ws0, digitsP 1 (some 2), oneP ['-', '.', '/', '月'], digitsP 1 (some 2), optP ['日'], ws0]]

/-- `episode_patterns` of `clean_program_title` (lines 149–158), in order
(`re.IGNORECASE` only affects the `EP?` pattern). -/
def episode_patterns : List (List Piece) :=
  [[ws0, optP ['第'], digitsP 6 none, optP ['期'], ws0],
   [ws0, oneP ['(', '（'], digitsP 6 none, oneP [')', '）'], ws0],
   [ws0, chrP '第', digitsP 1 (some 4), chrP '期', ws0],
   [ws0, chrP '第', digitsP 1 (some 4), chrP '集', ws0],
   [ws0, oneP ['E', 'e'], optP ['P', 'p'], digitsP 1 (some 4), ws0],
   [ws0, chrP '(', digitsP 1 (some 4), chrP ')', ws0],
   [ws0, oneP ['(', '（'], digitsP 1 (some 3), oneP [')', '）'], ws0],
   [ws0, chrP '第', digitsP 1 (some 3), chrP '回', ws0]]

/-- `r'\s*\d{4}\s*$'` (line 163). -/
def year_pattern : List Piece := [ws0, digitsP 4 (some 4), ws0]

/-- `r'\s*[\(（]?重播[\)）]?\s*$'` (line 166). -/
def rerun_pattern : List Piece :=
  [ws0, optP ['(', '（'], chrP '重', chrP '播', optP [')', '）'], ws0]

/-- `r'\s*[\(（]?首播[\)）]?\s*$'` (line 167). -/
def premiere_pattern : List Piece :=
  [ws0, optP ['(', '（'], chrP '首', chrP '播', optP [')', '）'], ws0]

/-- `r'\s*[\(（]?直播[\)）]?\s*$'` (line 168). -/
def live_pattern : List Piece :=
  [ws0, optP ['(', '（'], chrP '直', chrP '播', optP [')', '）'], ws0]

/-- `r'\s*\d{1,2}\s*$'` (line 171). -/
def trailing_digits_pattern : List Piece := [ws0, digitsP 1 (some 2), ws0]

/-- The full ordered rule pipeline of `clean_program_title`
(lines 138–175), from the trimmed original through the final
`cleaned.strip()`, before the degenerate-result check. -/
def applyRules (original : List Char) : List Char :=
  let cleaned := date_patterns.foldl (fun c p => stripSuffixMatch p c) original
  let cleaned := episode_patterns.foldl (fun c p => stripSuffixMatch p c) cleaned
  let cleaned := stripSuffixMatch year_pattern cleaned
  let cleaned := stripSuffixMatch rerun_pattern cleaned
  let cleaned := stripSuffixMatch premiere_pattern cleaned
  let cleaned := stripSuffixMatch live_pattern cleaned
  let new_cleaned := stripSuffixMatch trailing_digits_pattern cleaned
  let cleaned := if strip new_cleaned ≠ [] ∧ 2 ≤ new_cleaned.length then new_cleaned else cleaned
  strip cleaned

/-- `DescExtractor.clean_program_title` (lines 130–182): returns
`(cleaned, original, is_cleaned)`. -/
def clean_program_title (title : List Char) : List Char × List Char × Bool :=
  if title = [] then ([], [], false)
  else
    let original := strip title
    let cleaned := applyRules original
    let cleaned := if cleaned.length < 2 then original else cleaned
    (cleaned, original, cleaned != original)

/-- A stored description record (`{"channel": .., "title": .., "desc": ..}`,
lines 312–316). -/
structure Record where
  channel : List Char
  title : List Char
  desc : List Char
deriving DecidableEq

/-- The merge identity of a program: (normalized channel, normalized title). -/
abbrev ProgramKey := List Char × List Char

/-- The Description Store `desc_db`, the two nested dicts flattened into
one map keyed by `ProgramKey` (the nested structure only feeds statistics). -/
abbrev Store := ProgramKey → Option Record

def emptyStore : Store := fun _ => none

/-- The merge policy of `extract_from_source` (lines 305–320): insert a
whole new record when the key is absent; otherwise replace only `desc`,
and only when the new description is strictly longer. -/
def upsert (db : Store) (canonical_name cleaned_title desc : List Char) : Store :=
  match db (normalize canonical_name, normalize cleaned_title) with
  | none =>
    fun k => if k = (normalize canonical_name, normalize cleaned_title)
             then some ⟨canonical_name, cleaned_title, desc⟩ else db k
  | some r =>
    if r.desc.length < desc.length then
      fun k => if k = (normalize canonical_name, normalize cleaned_title)
               then some ⟨r.channel, r.title, desc⟩ else db k
    else db

/-- The channel alias table `target_channels`. -/
abbrev AliasTable := List Char → Option (List Char)

/-- Registering one reference channel (lines 226–239): a channel is a list
of display-name texts (`[]` stands for an absent/empty text, which Python
treats as falsy); the stripped first name is the canonical name, and every
truthy display name registers its normalized stripped form as an alias. -/
def registerChannel (table : AliasTable) (display_names : List (List Char)) : AliasTable :=
  match display_names with
  | [] => table
  | first :: _ =>
    let first_name := strip first
    if first_name = [] then table
    else display_names.foldl (fun t dn =>
      if dn = [] then t
      else fun k => if k = normalize (strip dn) then some first_name else t k) table

/-- The alias-table build of `load_target_channels` over the reference
feed's channel list (download/parse plumbing omitted). -/
def load_target_channels (channels : List (List (List Char))) : AliasTable :=
  channels.foldl registerChannel (fun _ => none)

/-- `DescExtractor.get_canonical_channel` (lines 249–253). -/
def get_canonical_channel (table : AliasTable) (channel_name : List Char) :
    List Char × Bool :=
  match table (normalize channel_name) with
  | some c => (c, true)
  | none => (channel_name, false)

/-- The (normalized alias, canonical name) pairs one channel contributes,
in registration order — the specification-side description of
`registerChannel` used to state C4. -/
def channelRegs (display_names : List (List Char)) : List (List Char × List Char) :=
  match display_names with
  | [] => []
  | first :: _ =>
    let first_name := strip first
    if first_name = [] then []
    else display_names.filterMap (fun dn =>
      if dn = [] then none else some (normalize (strip dn), first_name))

/-- All registrations of the reference feed, in order. -/
def registrations (channels : List (List (List Char))) : List (List Char × List Char) :=
  (channels.map channelRegs).flatten

/-- First-match association lookup (so lookup in a reversed registration
list is exactly last-write-wins). -/
def assocLookup : List (List Char × List Char) → List Char → Option (List Char)
  | [], _ => none
  | (k, v) :: rest, key => if k = key then some v else assocLookup rest key

/-- One `<programme>` element: channel reference, optional title text,
optional description text (`none` = absent element or absent text;
`some []` = empty text, equally falsy in Python). -/
structure Programme where
  channel : List Char
  title : Option (List Char)
  desc : Option (List Char)

/-- One `<channel>` element of a source feed. -/
structure FeedChannel where
  id : List Char
  display_names : List (List Char)

/-- A parsed source feed. -/
structure Feed where
  channels : List FeedChannel
  programmes : List Programme

/-- The source-channel map of `extract_from_source` (lines 263–268):
id → stripped first display name, later channels overwriting earlier ones. -/
def buildChannelMap (chs : List FeedChannel) : List Char → Option (List Char) :=
  chs.foldl (fun m ch =>
    match ch.display_names with
    | [] => m
    | first :: _ =>
      if first = [] then m
      else fun k => if k = ch.id then some (strip first) else m k)
    (fun _ => none)

/-- The per-programme body of `extract_from_source` (lines 273–320):
resolve the channel (`channel_map.get(cid, '')` is `getD []`), skip a
programme whose title or desc element is absent or has falsy text
(`none` and `some []` both give `getD [] = []`), repair and validate the
description, clean the title, then upsert. -/
def processProgramme (table : AliasTable) (cmap : List Char → Option (List Char))
    (db : Store) (prog : Programme) : Store :=
  let res := get_canonical_channel table ((cmap prog.channel).getD [])
  if !res.2 then db
  else if prog.title.getD [] = [] then db
  else if prog.desc.getD [] = [] then db
  else
    let desc := fix_html_entities (strip (prog.desc.getD []))
    if !is_valid_desc desc then db
    else upsert db res.1 (clean_program_title (strip (prog.title.getD []))).1 desc

/-- `DescExtractor.extract_from_source` for one configured source
(lines 255–327): a feed that cannot be fetched, decompressed or parsed is
`none` (content `None` at line 257, or the `except` at lines 326–327) and
contributes nothing; otherwise every programme is processed in order. -/
def extract_from_source (table : AliasTable) (db : Store) (feed : Option Feed) : Store :=
  match feed with
  | none => db
  | some f =>
    let cmap := buildChannelMap f.channels
    f.programmes.foldl (processProgramme table cmap) db

/-- The source loop of `run` (lines 418–419). -/
def ingestAll (table : AliasTable) (db : Store) (feeds : List (Option Feed)) : Store :=
  feeds.foldl (extract_from_source table) db

/-- A pre-filtered (channel, title, desc) candidate, as fed to the merge
policy — the unit of C2's order-independence statement. -/
structure Triple where
  channel : List Char
  title : List Char
  desc : List Char
deriving DecidableEq

def upsertTriple (db : Store) (t : Triple) : Store := upsert db t.channel t.title t.desc

def ingestTriples (db : Store) (l : List Triple) : Store := l.foldl upsertTriple db

def keyOf (t : Triple) : ProgramKey := (normalize t.channel, normalize t.title)

/-- The description part of the Store at a key. -/
def descAt (db : Store) (k : ProgramKey) : Option (List Char) := (db k).map Record.desc

/-- How one candidate description updates the stored one:
keep the old unless the new is strictly longer. -/
def mergeDesc (old : Option (List Char)) (d : List Char) : List Char :=
  match old with
  | none => d
  | some o => if o.length < d.length then d else o

/-- Candidates that are either for different keys or have different
description lengths — the tie-freeness C2 assumes. -/
def tieFree (a b : Triple) : Prop :=
  keyOf a = keyOf b → a.desc.length ≠ b.desc.length

instance (a b : Triple) : Decidable (tieFree a b) :=
  inferInstanceAs (Decidable (keyOf a = keyOf b → a.desc.length ≠ b.desc.length))

/-- A decode fixed point contains no decodable entity: no suffix starting
with `&` carries an entity name. -/
def noEntity (s : List Char) : Prop :=
  ∀ q, ('&' :: q) <:+ s → findEnt q = none

/-- The entity-bearing substrings none of which a decode fixed point can
contain: one generator per entity name. -/
def entMin : List (List Char) :=
  ["&amp".data, "&apos;".data, "&lt".data, "&gt".data, "&quot".data, "&nbsp".data]

/-- The character substitution `'<'` → `'《'` (first literal replacement),
as a character map. -/
def angleMap1 : Char → Char := fun c => if c = '<' then '《' else c

/-- The character substitution `'>'` → `'》'` (second literal replacement),
as a character map. -/
def angleMap2 : Char → Char := fun c => if c = '>' then '》' else c

/-! ### Character-level lemmas -/

theorem toNat_ofNat_valid {n : Nat} (h : n.isValidChar) : (Char.ofNat n).toNat = n := by
  simp only [Char.ofNat, dif_pos h, Char.ofNatAux, Char.toNat, UInt32.toNat]
  rfl

theorem removable_eq_false_between (c : Char) (h1 : 65 ≤ c.toNat) (h2 : c.toNat ≤ 122)
    (h3 : c.toNat ≠ 91) (h4 : c.toNat ≠ 93) (h5 : c.toNat ≠ 95) :
    removableChar c = false := by
  simp only [removableChar, isWS, Bool.or_eq_false_iff, beq_eq_false_iff_ne]
  repeat' apply And.intro
  all_goals rintro rfl
  all_goals revert h1 h2 h3 h4 h5
  all_goals decide

theorem lowerChar_toNat_of_upper {c : Char} (h : 65 ≤ c.toNat ∧ c.toNat ≤ 90) :
    (lowerChar c).toNat = c.toNat + 32 := by
  unfold lowerChar
  rw [if_pos h]
  exact toNat_ofNat_valid (Or.inl (by omega))

theorem lowerChar_eq_of_not_upper {c : Char} (h : ¬(65 ≤ c.toNat ∧ c.toNat ≤ 90)) :
    lowerChar c = c := by
  unfold lowerChar
  rw [if_neg h]

theorem lowerChar_idem (c : Char) : lowerChar (lowerChar c) = lowerChar c := by
  by_cases h : 65 ≤ c.toNat ∧ c.toNat ≤ 90
  · have ht := lowerChar_toNat_of_upper h
    exact lowerChar_eq_of_not_upper (by omega)
  · rw [lowerChar_eq_of_not_upper h, lowerChar_eq_of_not_upper h]

theorem removableChar_lowerChar (c : Char) : removableChar (lowerChar c) = removableChar c := by
  by_cases h : 65 ≤ c.toNat ∧ c.toNat ≤ 90
  · have ht := lowerChar_toNat_of_upper h
    rw [removable_eq_false_between (lowerChar c) (by omega) (by omega) (by omega) (by omega) (by omega),
        removable_eq_false_between c (by omega) (by omega) (by omega) (by omega) (by omega)]
  · rw [lowerChar_eq_of_not_upper h]

/-! ### Lemmas about `normalize` -/

theorem normalize_eq (x : List Char) :
    normalize x = (x.filter (fun c => !removableChar c)).map lowerChar := by
  cases x <;> simp [normalize]

theorem filter_keep_idem (x : List Char) :
    (x.filter (fun c => !removableChar c)).filter (fun c => !removableChar c)
      = x.filter (fun c => !removableChar c) :=
  List.filter_eq_self.mpr fun _ ha => (List.mem_filter.mp ha).2

theorem normalize_idem (x : List Char) : normalize (normalize x) = normalize x := by
  rw [normalize_eq x, normalize_eq, List.filter_map,
      List.filter_congr (fun a _ => by
        show ((fun c => !removableChar c) ∘ lowerChar) a = (fun c => !removableChar c) a
        simp [Function.comp, removableChar_lowerChar]),
      filter_keep_idem, List.map_map]
  exact List.map_congr_left (fun a _ => lowerChar_idem a)

/-- C7: `normalize` is a total function built from filtering out the
removable characters (all whitespace, `- _ + |`, the ASCII and full-width
bracket glyphs, and colons) and lower-casing the remainder; empty input
yields the empty key; no removable character survives in the output; and
it is idempotent: `normalize (normalize x) = normalize x` for every `x`. -/
theorem C7_text_normalizer :
    (∀ x, normalize x = (x.filter (fun c => !removableChar c)).map lowerChar) ∧
    normalize [] = [] ∧
    (∀ x, (normalize x).all (fun c => !removableChar c) = true) ∧
    (∀ x, normalize (normalize x) = normalize x) := by
  refine ⟨normalize_eq, rfl, fun x => ?_, normalize_idem⟩
  rw [normalize_eq, List.all_eq_true]
  intro c hc
  rcases List.mem_map.mp hc with ⟨d, hd, rfl⟩
  have := List.of_mem_filter hd
  simpa [removableChar_lowerChar] using this

/-! ### Lemmas about the Store and `upsert` -/

theorem upsert_of_none {db : Store} {c t d : List Char}
    (h : db (normalize c, normalize t) = none) :
    upsert db c t d =
      fun k => if k = (normalize c, normalize t) then some ⟨c, t, d⟩ else db k := by
  unfold upsert
  rw [h]

theorem upsert_of_some_longer {db : Store} {c t d : List Char} {r : Record}
    (h : db (normalize c, normalize t) = some r) (hl : r.desc.length < d.length) :
    upsert db c t d =
      fun k => if k = (normalize c, normalize t) then some ⟨r.channel, r.title, d⟩ else db k := by
  unfold upsert
  rw [h]
  simp only [if_pos hl]

theorem upsert_of_some_not_longer {db : Store} {c t d : List Char} {r : Record}
    (h : db (normalize c, normalize t) = some r) (hl : ¬ r.desc.length < d.length) :
    upsert db c t d = db := by
  unfold upsert
  rw [h]
  simp only [if_neg hl]

theorem upsert_other_key {db : Store} {c t d : List Char} {k : ProgramKey}
    (hk : k ≠ (normalize c, normalize t)) :
    upsert db c t d k = db k := by
  unfold upsert
  cases h : db (normalize c, normalize t) with
  | none => simp [hk]
  | some r =>
    by_cases hl : r.desc.length < d.length <;> simp [hl, hk]

theorem upsert_at_key_isSome (db : Store) (c t d : List Char) :
    (upsert db c t d (normalize c, normalize t)).isSome = true := by
  unfold upsert
  cases h : db (normalize c, normalize t) with
  | none => simp
  | some r =>
    by_cases hl : r.desc.length < d.length <;> simp [hl, h]

/-- C1: the merge policy of `extract_from_source`.  When no record exists
for the key, a whole new record `{channel, title, desc}` is inserted (and
no other key moves); when a record exists and the new repaired
description is strictly longer, exactly the `desc` field is replaced,
`channel`/`title` staying as stored (and no other key moves); otherwise
the Store is returned unmutated. -/
theorem C1_upsert_merge_policy (db : Store) (c t d : List Char) :
    (db (normalize c, normalize t) = none →
      upsert db c t d =
        fun k => if k = (normalize c, normalize t) then some ⟨c, t, d⟩ else db k) ∧
    (∀ r, db (normalize c, normalize t) = some r → r.desc.length < d.length →
      upsert db c t d =
        fun k => if k = (normalize c, normalize t)
                 then some ⟨r.channel, r.title, d⟩ else db k) ∧
    (∀ r, db (normalize c, normalize t) = some r → ¬ r.desc.length < d.length →
      upsert db c t d = db) :=
  ⟨fun h => upsert_of_none h,
   fun _ h hl => upsert_of_some_longer h hl,
   fun _ h hl => upsert_of_some_not_longer h hl⟩

theorem C1_upsert_merge_policy_witness :
    (emptyStore (normalize "TV".data, normalize "Show".data) = none) ∧
    upsert emptyStore "TV".data "Show".data "hello".data =
      fun k => if k = (normalize "TV".data, normalize "Show".data)
               then some ⟨"TV".data, "Show".data, "hello".data⟩ else emptyStore k :=
  ⟨rfl, (C1_upsert_merge_policy emptyStore "TV".data "Show".data "hello".data).1 rfl⟩

/-! ### Colon-insensitivity of title keys (C9) -/

theorem keep_and_nonColon (a : Char) :
    (!removableChar a && !(a == ':' || a == '：')) = !removableChar a := by
  by_cases h1 : a = ':'
  · subst h1; decide
  by_cases h2 : a = '：'
  · subst h2; decide
  have : (a == ':' || a == '：') = false := by
    simp [beq_eq_false_iff_ne, h1, h2]
  rw [this]
  simp

theorem filter_keep_of_filter_nonColon (x : List Char) :
    (x.filter (fun c => !(c == ':' || c == '：'))).filter (fun c => !removableChar c)
      = x.filter (fun c => !removableChar c) := by
  rw [List.filter_filter]
  exact List.filter_congr fun a _ => keep_and_nonColon a

/-- C9: the single `normalize` used for title keys deletes colons (ASCII
and full-width): two titles that agree after erasing colons get equal
normalized keys, so on one channel both upserts address one `ProgramKey`
— one record — and no other key of the Store is touched. -/
theorem C9_colon_insensitive_title_keys (t1 t2 : List Char)
    (h : t1.filter (fun c => !(c == ':' || c == '：'))
       = t2.filter (fun c => !(c == ':' || c == '：'))) :
    normalize t1 = normalize t2 ∧
    ∀ (db : Store) (ch d1 d2 : List Char),
      ((upsert (upsert db ch t1 d1) ch t2 d2) (normalize ch, normalize t1)).isSome = true ∧
      ∀ k, k ≠ (normalize ch, normalize t1) →
        (upsert (upsert db ch t1 d1) ch t2 d2) k = db k := by
  have hnorm : normalize t1 = normalize t2 := by
    rw [normalize_eq, normalize_eq, ← filter_keep_of_filter_nonColon t1,
        ← filter_keep_of_filter_nonColon t2, h]
  refine ⟨hnorm, fun db ch d1 d2 => ⟨?_, fun k hk => ?_⟩⟩
  · have := upsert_at_key_isSome (upsert db ch t1 d1) ch t2 d2
    rwa [← hnorm] at this
  · rw [upsert_other_key (by rw [← hnorm]; exact hk), upsert_other_key hk]

/-! ### Order (in)dependence of the merge policy (C2) -/

theorem descAt_upsert (db : Store) (c t d : List Char) (k : ProgramKey) :
    descAt (upsert db c t d) k =
      if k = (normalize c, normalize t)
      then some (mergeDesc (descAt db (normalize c, normalize t)) d)
      else descAt db k := by
  by_cases hk : k = (normalize c, normalize t)
  · subst hk
    rw [if_pos rfl]
    cases h : db (normalize c, normalize t) with
    | none =>
      rw [upsert_of_none h]
      simp [descAt, mergeDesc, h]
    | some r =>
      by_cases hl : r.desc.length < d.length
      · rw [upsert_of_some_longer h hl]
        simp [descAt, mergeDesc, h, hl]
      · rw [upsert_of_some_not_longer h hl]
        simp [descAt, mergeDesc, h, hl]
  · rw [if_neg hk]
    unfold descAt
    rw [upsert_other_key hk]

theorem descAt_upsertTriple (db : Store) (t : Triple) (k : ProgramKey) :
    descAt (upsertTriple db t) k =
      if k = keyOf t then some (mergeDesc (descAt db (keyOf t)) t.desc)
      else descAt db k :=
  descAt_upsert db t.channel t.title t.desc k

theorem descAt_fold_congr {db1 db2 : Store} (l : List Triple)
    (h : ∀ k, descAt db1 k = descAt db2 k) :
    ∀ k, descAt (ingestTriples db1 l) k = descAt (ingestTriples db2 l) k := by
  induction l generalizing db1 db2 with
  | nil => exact h
  | cons t l ih =>
    exact ih (fun k => by simp only [descAt_upsertTriple, h])

theorem tieFree_symm {a b : Triple} (h : tieFree a b) : tieFree b a :=
  fun hk => (h hk.symm).symm

theorem mergeDesc_swap (o : Option (List Char)) {d1 d2 : List Char}
    (h : d1.length ≠ d2.length) :
    mergeDesc (some (mergeDesc o d1)) d2 = mergeDesc (some (mergeDesc o d2)) d1 := by
  cases o with
  | none =>
    simp only [mergeDesc]
    split_ifs <;> first | rfl | omega
  | some o' =>
    simp only [mergeDesc]
    split_ifs <;> first | rfl | omega

theorem descAt_upsertTriple_swap {x y : Triple} (hxy : tieFree x y) (db : Store)
    (k : ProgramKey) :
    descAt (upsertTriple (upsertTriple db x) y) k
      = descAt (upsertTriple (upsertTriple db y) x) k := by
  by_cases hky : keyOf y = keyOf x
  · simp only [descAt_upsertTriple, hky]
    by_cases hk : k = keyOf x
    · simp only [if_pos hk]
      exact congrArg some (mergeDesc_swap _ (hxy hky.symm))
    · simp only [if_neg hk]
  · by_cases hkx : k = keyOf x
    · have hk2 : k ≠ keyOf y := fun hc => hky (hc ▸ hkx.symm ▸ rfl)
      simp only [descAt_upsertTriple, if_pos hkx, if_neg hk2,
        if_neg (fun hc : keyOf x = keyOf y => hky hc.symm)]
    · by_cases hk2 : k = keyOf y
      · simp only [descAt_upsertTriple, if_pos hk2, if_neg hkx, if_neg hky]
      · simp only [descAt_upsertTriple, if_neg hkx, if_neg hk2]

theorem descAt_perm {l l' : List Triple} (hp : l.Perm l') :
    l.Pairwise tieFree →
    ∀ db k, descAt (ingestTriples db l) k = descAt (ingestTriples db l') k := by
  induction hp with
  | nil => exact fun _ _ _ => rfl
  | cons x hp ih =>
    intro hpair db k
    exact ih (List.pairwise_cons.mp hpair).2 (upsertTriple db x) k
  | swap x y l =>
    intro hpair db k
    have hxy : tieFree y x :=
      (List.pairwise_cons.mp hpair).1 x (List.mem_cons_self x l)
    exact descAt_fold_congr l (fun k' => descAt_upsertTriple_swap hxy db k') k
  | trans hp1 hp2 ih1 ih2 =>
    intro hpair db k
    rw [ih1 hpair db k,
        ih2 ((List.Perm.pairwise_iff (fun h => tieFree_symm h) hp1).mp hpair) db k]

/-- C2 (amended): with tie-free candidates (no two candidates for one key
of equal description length), replaying the triples in any order gives
the same stored description at every key; the `channel`/`title` display
strings, by contrast, come from whichever candidate is first ingested for
the key and can depend on the order (see the counterexample). -/
theorem C2_order_independent_descriptions (l l' : List Triple) (db : Store)
    (hp : l.Perm l') (hpair : l.Pairwise tieFree) (k : ProgramKey) :
    descAt (ingestTriples db l) k = descAt (ingestTriples db l') k :=
  descAt_perm hp hpair db k

/-- C2, as stated, is false: two tie-free candidates for one key whose
display spellings differ yield different final Stores under the two
orders (the stored `channel`/`title` strings come from the first
insertion), even though no two candidate descriptions share a length. -/
theorem C2_counterexample :
    (keyOf ⟨"CCTV-1".data, "News".data, "hello".data⟩
       = keyOf ⟨"cctv1".data, "NEWS".data, "hello!".data⟩) ∧
    "hello".data.length ≠ "hello!".data.length ∧
    ingestTriples emptyStore
        [⟨"CCTV-1".data, "News".data, "hello".data⟩,
         ⟨"cctv1".data, "NEWS".data, "hello!".data⟩]
        (keyOf ⟨"CCTV-1".data, "News".data, "hello".data⟩)
      ≠ ingestTriples emptyStore
        [⟨"cctv1".data, "NEWS".data, "hello!".data⟩,
         ⟨"CCTV-1".data, "News".data, "hello".data⟩]
        (keyOf ⟨"CCTV-1".data, "News".data, "hello".data⟩) := by
  refine ⟨by decide, by decide, by decide⟩

theorem C2_order_independent_descriptions_witness :
    ([(⟨"BTV".data, "Drama".data, "abcdef".data⟩ : Triple),
      ⟨"btv".data, "DRAMA".data, "xyzabcd".data⟩].Perm
     [⟨"btv".data, "DRAMA".data, "xyzabcd".data⟩,
      ⟨"BTV".data, "Drama".data, "abcdef".data⟩]) ∧
    ([(⟨"BTV".data, "Drama".data, "abcdef".data⟩ : Triple),
      ⟨"btv".data, "DRAMA".data, "xyzabcd".data⟩].Pairwise tieFree) ∧
    descAt (ingestTriples emptyStore
        [⟨"BTV".data, "Drama".data, "abcdef".data⟩,
         ⟨"btv".data, "DRAMA".data, "xyzabcd".data⟩]) ("btv".data, "drama".data)
      = descAt (ingestTriples emptyStore
        [⟨"btv".data, "DRAMA".data, "xyzabcd".data⟩,
         ⟨"BTV".data, "Drama".data, "abcdef".data⟩]) ("btv".data, "drama".data) :=
  ⟨List.Perm.swap _ _ _, by decide,
   C2_order_independent_descriptions _ _ emptyStore (List.Perm.swap _ _ _) (by decide) _⟩

/-! ### Feed-level failure (C8) -/

/-- C8: a source feed that cannot be fetched, decompressed or parsed
(model: `none`) absorbs zero records — the Store is exactly what it was —
and the run continues with the remaining feeds: deleting the failed feed
from the source list leaves the final Store unchanged. -/
theorem C8_failed_feed_contributes_nothing (table : AliasTable) (db : Store)
    (pre post : List (Option Feed)) :
    extract_from_source table db none = db ∧
    ingestAll table db (pre ++ none :: post) = ingestAll table db (pre ++ post) := by
  refine ⟨rfl, ?_⟩
  unfold ingestAll
  rw [List.foldl_append, List.foldl_append]
  rfl

/-! ### Snapshot records survive the run (C10) -/

theorem upsert_preserves_record {db : Store} {k : ProgramKey} {r : Record}
    (h : db k = some r) (c t d : List Char) :
    ∃ d', upsert db c t d k = some ⟨r.channel, r.title, d'⟩ ∧
      (d' = r.desc ∨ r.desc.length < d'.length) := by
  by_cases hk : k = (normalize c, normalize t)
  · subst hk
    by_cases hl : r.desc.length < d.length
    · refine ⟨d, ?_, Or.inr hl⟩
      rw [upsert_of_some_longer h hl]
      simp
    · refine ⟨r.desc, ?_, Or.inl rfl⟩
      rw [upsert_of_some_not_longer h hl, h]
  · exact ⟨r.desc, by rw [upsert_other_key hk, h], Or.inl rfl⟩

theorem processProgramme_preserves_record {table : AliasTable}
    {cmap : List Char → Option (List Char)} {db : Store} (prog : Programme)
    {k : ProgramKey} {r : Record} (h : db k = some r) :
    ∃ d', processProgramme table cmap db prog k = some ⟨r.channel, r.title, d'⟩ ∧
      (d' = r.desc ∨ r.desc.length < d'.length) := by
  simp only [processProgramme]
  split
  · exact ⟨r.desc, by rw [h], Or.inl rfl⟩
  · split
    · exact ⟨r.desc, by rw [h], Or.inl rfl⟩
    · split
      · exact ⟨r.desc, by rw [h], Or.inl rfl⟩
      · split
        · exact ⟨r.desc, by rw [h], Or.inl rfl⟩
        · exact upsert_preserves_record h _ _ _

theorem fold_processProgramme_preserves_record {table : AliasTable}
    {cmap : List Char → Option (List Char)} {progs : List Programme}
    {db : Store} {k : ProgramKey} {r : Record} (h : db k = some r) :
    ∃ d', (progs.foldl (processProgramme table cmap) db) k
            = some ⟨r.channel, r.title, d'⟩ ∧
      (d' = r.desc ∨ r.desc.length < d'.length) := by
  induction progs generalizing db r with
  | nil => exact ⟨r.desc, by simp only [List.foldl_nil]; rw [h], Or.inl rfl⟩
  | cons p ps ih =>
    obtain ⟨d1, h1, hd1⟩ := processProgramme_preserves_record p h
    obtain ⟨d2, h2, hd2⟩ := ih h1
    refine ⟨d2, h2, ?_⟩
    rcases hd1 with rfl | h1l
    · exact hd2
    · rcases hd2 with rfl | h2l
      · exact Or.inr h1l
      · exact Or.inr (lt_trans h1l h2l)

theorem extract_preserves_record {table : AliasTable} {db : Store}
    (feed : Option Feed) {k : ProgramKey} {r : Record} (h : db k = some r) :
    ∃ d', extract_from_source table db feed k = some ⟨r.channel, r.title, d'⟩ ∧
      (d' = r.desc ∨ r.desc.length < d'.length) := by
  cases feed with
  | none => exact ⟨r.desc, by rw [show extract_from_source table db none = db from rfl, h], Or.inl rfl⟩
  | some f => exact fold_processProgramme_preserves_record h

/-- C10: a record loaded verbatim from a prior snapshot is never
re-validated — whatever its `desc` (shorter than 5 characters, a
placeholder, anything), the record is still present at run end with its
`channel`/`title` display strings intact, and its `desc` is either the
original one or some strictly longer replacement. -/
theorem C10_snapshot_records_survive (table : AliasTable) (snapshot : Store)
    (feeds : List (Option Feed)) (k : ProgramKey) (r : Record)
    (h : snapshot k = some r) :
    ∃ d', ingestAll table snapshot feeds k = some ⟨r.channel, r.title, d'⟩ ∧
      (d' = r.desc ∨ r.desc.length < d'.length) := by
  induction feeds generalizing snapshot r with
  | nil => exact ⟨r.desc, by rw [show ingestAll table snapshot [] k = snapshot k from rfl, h], Or.inl rfl⟩
  | cons f fs ih =>
    obtain ⟨d1, h1, hd1⟩ := extract_preserves_record f h
    obtain ⟨d2, h2, hd2⟩ := ih _ _ h1
    refine ⟨d2, h2, ?_⟩
    rcases hd1 with rfl | h1l
    · exact hd2
    · rcases hd2 with rfl | h2l
      · exact Or.inr h1l
      · exact Or.inr (lt_trans h1l h2l)

theorem C10_snapshot_records_survive_witness :
    ((fun k => if k = ("ch".data, "ti".data)
               then some (⟨"CH".data, "TI".data, "ab".data⟩ : Record)
               else none) (("ch".data, "ti".data) : ProgramKey)
        = some (⟨"CH".data, "TI".data, "ab".data⟩ : Record)) ∧
    is_valid_desc "ab".data = false ∧
    ∃ d', ingestAll (fun _ => none)
        (fun k => if k = ("ch".data, "ti".data)
                  then some (⟨"CH".data, "TI".data, "ab".data⟩ : Record)
                  else none) [none] ("ch".data, "ti".data)
          = some ⟨"CH".data, "TI".data, d'⟩ ∧
      (d' = "ab".data ∨ "ab".data.length < d'.length) :=
  ⟨by decide, by decide,
   C10_snapshot_records_survive (fun _ => none) _ [none] ("ch".data, "ti".data)
     ⟨"CH".data, "TI".data, "ab".data⟩ (by decide)⟩

/-! ### Pre-filter rejections never touch the Store (C3) -/

theorem is_valid_desc_eq_false {d : List Char}
    (h : (strip d).length < 5 ∨
         invalid_desc_patterns.any (fun p => p.isPrefixOf (strip d)) = true) :
    is_valid_desc d = false := by
  unfold is_valid_desc
  split
  · rfl
  · rcases h with h | h
    · rw [if_pos h]
    · by_cases hlen : (strip d).length < 5
      · rw [if_pos hlen]
      · rw [if_neg hlen, if_pos h]

/-- C3: a programme whose description is absent, or whose repaired
description is shorter than 5 characters after stripping, or whose
repaired description starts (anchored) with one of the fixed placeholder
patterns, is rejected before any merge decision: processing it returns
the Store unchanged, for every channel and title input. -/
theorem C3_invalid_descriptions_never_mutate (table : AliasTable)
    (cmap : List Char → Option (List Char)) (db : Store) (prog : Programme)
    (h : prog.desc = none ∨ prog.desc = some [] ∨
         (strip (fix_html_entities (strip (prog.desc.getD [])))).length < 5 ∨
         invalid_desc_patterns.any
           (fun p => p.isPrefixOf (strip (fix_html_entities (strip (prog.desc.getD []))))) = true) :
    processProgramme table cmap db prog = db := by
  simp only [processProgramme]
  split
  · rfl
  split
  · rfl
  split
  · rfl
  next hde =>
    split
    · rfl
    next hv =>
      exfalso
      have hfalse : is_valid_desc (fix_html_entities (strip (prog.desc.getD []))) = false := by
        apply is_valid_desc_eq_false
        rcases h with h | h | h | h
        · exact absurd (by rw [h]; rfl) hde
        · exact absurd (by rw [h]; rfl) hde
        · exact Or.inl h
        · exact Or.inr h
      rw [hfalse] at hv
      exact hv rfl

theorem C3_invalid_descriptions_never_mutate_witness :
    ((strip (fix_html_entities
        (strip ((some "abc".data : Option (List Char)).getD [])))).length < 5) ∧
    processProgramme
        (fun k => if k = "cctv".data then some "CCTV".data else none)
        (fun cid => if cid = "c1".data then some "CCTV".data else none)
        emptyStore ⟨"c1".data, some "节目".data, some "abc".data⟩ = emptyStore :=
  ⟨by decide,
   C3_invalid_descriptions_never_mutate _ _ emptyStore
     ⟨"c1".data, some "节目".data, some "abc".data⟩
     (Or.inr (Or.inr (Or.inl (by decide))))⟩

/-! ### Channel resolution (C4) -/

theorem assocLookup_append (a b : List (List Char × List Char)) (k : List Char) :
    assocLookup (a ++ b) k = (assocLookup a k).orElse (fun _ => assocLookup b k) := by
  induction a with
  | nil => rfl
  | cons p rest ih =>
    by_cases h : p.1 = k
    · rcases p with ⟨pk, pv⟩
      simp only [List.cons_append, assocLookup, if_pos h]
      rfl
    · rcases p with ⟨pk, pv⟩
      simp only [List.cons_append, assocLookup, if_neg h]
      exact ih

theorem foldl_alias_update (fn : List Char) (dns : List (List Char)) (t : AliasTable)
    (k : List Char) :
    (dns.foldl (fun t' dn => if dn = [] then t'
        else fun k' => if k' = normalize (strip dn) then some fn else t' k') t) k
      = (assocLookup (dns.filterMap (fun dn =>
            if dn = [] then none else some (normalize (strip dn), fn))).reverse k).orElse
          (fun _ => t k) := by
  induction dns generalizing t with
  | nil => rfl
  | cons dn rest ih =>
    by_cases h : dn = []
    · simp only [List.foldl_cons, if_pos h, List.filterMap_cons, h]
      exact ih t
    · simp only [List.foldl_cons, if_neg h, List.filterMap_cons]
      rw [ih, List.reverse_cons, assocLookup_append]
      cases assocLookup (rest.filterMap (fun dn =>
          if dn = [] then none else some (normalize (strip dn), fn))).reverse k with
      | some v => rfl
      | none =>
        show (if k = normalize (strip dn) then some fn else t k)
              = (assocLookup [(normalize (strip dn), fn)] k).orElse (fun _ => t k)
        by_cases h2 : k = normalize (strip dn)
        · simp [assocLookup, h2]
        · simp only [assocLookup, if_neg h2,
            if_neg (show ¬ normalize (strip dn) = k from fun hc => h2 hc.symm)]
          rfl

theorem registerChannel_lookup (t : AliasTable) (dns : List (List Char)) (k : List Char) :
    registerChannel t dns k
      = (assocLookup (channelRegs dns).reverse k).orElse (fun _ => t k) := by
  cases dns with
  | nil => rfl
  | cons first rest =>
    simp only [registerChannel, channelRegs]
    by_cases h : strip first = []
    · rw [if_pos h, if_pos h]
      rfl
    · rw [if_neg h, if_neg h]
      exact foldl_alias_update (strip first) (first :: rest) t k

theorem foldl_registerChannel_lookup (cs : List (List (List Char))) (t : AliasTable)
    (k : List Char) :
    (cs.foldl registerChannel t) k
      = (assocLookup (registrations cs).reverse k).orElse (fun _ => t k) := by
  induction cs generalizing t with
  | nil => rfl
  | cons c rest ih =>
    rw [List.foldl_cons, ih,
        show registrations (c :: rest) = channelRegs c ++ registrations rest from by
          simp [registrations],
        List.reverse_append, assocLookup_append]
    cases assocLookup (registrations rest).reverse k with
    | some v => rfl
    | none =>
      show registerChannel t c k = (assocLookup (channelRegs c).reverse k).orElse _
      rw [registerChannel_lookup]

theorem load_target_channels_lookup (channels : List (List (List Char))) (k : List Char) :
    load_target_channels channels k = assocLookup (registrations channels).reverse k := by
  rw [load_target_channels, foldl_registerChannel_lookup]
  cases assocLookup (registrations channels).reverse k <;> rfl

/-- C4: building the alias table registers, for every reference channel
with a truthy first display name, every truthy display name (normalized)
as mapping to that channel's stripped first display name, with later
registrations overwriting earlier ones on key collisions — i.e. the table
is exactly first-match lookup in the reversed registration list; and
resolving a source channel name yields `(canonical, true)` when its
normalization is registered, and the original input with `false`
otherwise. -/
theorem C4_channel_resolution (channels : List (List (List Char))) (name : List Char) :
    (∀ k, load_target_channels channels k
            = assocLookup (registrations channels).reverse k) ∧
    (∀ c, assocLookup (registrations channels).reverse (normalize name) = some c →
       get_canonical_channel (load_target_channels channels) name = (c, true)) ∧
    (assocLookup (registrations channels).reverse (normalize name) = none →
       get_canonical_channel (load_target_channels channels) name = (name, false)) := by
  refine ⟨load_target_channels_lookup channels, fun c hc => ?_, fun hn => ?_⟩
  · unfold get_canonical_channel
    rw [load_target_channels_lookup, hc]
  · unfold get_canonical_channel
    rw [load_target_channels_lookup, hn]

theorem C4_channel_resolution_witness :
    (assocLookup (registrations [[" CCTV-1 ".data, "CCTV1".data, "央视一套".data],
        ["CCTV-2".data]]).reverse (normalize "cctv 1".data) = some "CCTV-1".data) ∧
    get_canonical_channel
        (load_target_channels [[" CCTV-1 ".data, "CCTV1".data, "央视一套".data],
          ["CCTV-2".data]]) "cctv 1".data = ("CCTV-1".data, true) ∧
    get_canonical_channel
        (load_target_channels [[" CCTV-1 ".data, "CCTV1".data, "央视一套".data],
          ["CCTV-2".data]]) "BTV".data = ("BTV".data, false) :=
  ⟨by decide,
   (C4_channel_resolution _ "cctv 1".data).2.1 "CCTV-1".data (by decide),
   (C4_channel_resolution _ "BTV".data).2.2 (by decide)⟩

/-! ### Title cleaner post-condition (C5) -/

/-- C5: if the fully cleaned title (after the whole ordered rule pipeline
and the final strip) is shorter than 2 characters, all cleaning is
discarded and the trimmed original title is returned with the modified
flag `false`; in particular a title that is only an episode marker, such
as `"第25期"`, comes back unchanged. -/
theorem C5_degenerate_cleaning_reverted :
    (∀ title, (applyRules (strip title)).length < 2 →
       clean_program_title title = (strip title, strip title, false)) ∧
    clean_program_title "第25期".data = ("第25期".data, "第25期".data, false) := by
  constructor
  · intro title h
    by_cases ht : title = []
    · subst ht
      rfl
    · simp only [clean_program_title, if_neg ht, if_pos h, bne_self_eq_false]
  · decide

theorem C5_degenerate_cleaning_reverted_witness :
    ((applyRules (strip "第3集".data)).length < 2) ∧
    clean_program_title "第3集".data = (strip "第3集".data, strip "第3集".data, false) :=
  ⟨by decide, C5_degenerate_cleaning_reverted.1 "第3集".data (by decide)⟩

/-! ### Markup repair: the decode loop and idempotence (C6) -/

theorem iterate_of_fixed {s : List Char} (h : unescape s = s) :
    ∀ k, unescape^[k] s = s := by
  intro k
  induction k with
  | zero => rfl
  | succ k ih => rw [Function.iterate_succ_apply, h, ih]

theorem decodeLoop_of_fixed {s : List Char} (h : unescape s = s) (n : Nat) :
    decodeLoop n s = s := by
  cases n with
  | zero => rfl
  | succ n => simp [decodeLoop, h]

/-- The decode loop, run with fuel `n`, stops at the iterate where decoding
first becomes stable: if the `k`-th iterate is already a decode fixed point
and `k ≤ n`, the loop's result is exactly that iterate. -/
theorem decodeLoop_reaches_fixed :
    ∀ (n k : Nat) (s : List Char), k ≤ n →
      unescape^[k + 1] s = unescape^[k] s → decodeLoop n s = unescape^[k] s := by
  intro n
  induction n with
  | zero =>
    intro k s hk h
    interval_cases k
    simp [decodeLoop]
  | succ n ih =>
    intro k s hk h
    by_cases hfix : unescape s = s
    · rw [decodeLoop_of_fixed hfix, iterate_of_fixed hfix]
    · cases k with
      | zero =>
        simp only [Function.iterate_one, Function.iterate_zero, id] at h
        exact absurd h hfix
      | succ k =>
        have h' : unescape^[k + 1] (unescape s) = unescape^[k] (unescape s) := by
          rw [← Function.iterate_succ_apply, ← Function.iterate_succ_apply]
          exact h
        have : decodeLoop (n + 1) s = decodeLoop n (unescape s) := by
          simp [decodeLoop, hfix]
        rw [this, ih k (unescape s) (Nat.le_of_succ_le_succ hk) h',
            ← Function.iterate_succ_apply]

theorem findEnt_spec {r : List Char} {p : Char × List Char} (h : findEnt r = some p) :
    ∃ e ∈ entities, e.1 <+: r ∧ p.2 = r.drop e.1.length ∧ 2 ≤ e.1.length := by
  unfold findEnt at h
  rcases Option.map_eq_some'.mp h with ⟨e, he, hp⟩
  refine ⟨e, List.mem_of_find?_eq_some he, ?_, ?_, ?_⟩
  · have hpp := List.find?_some he
    simp only [ List.isPrefixOf_iff_prefix] at hpp
    exact hpp
  · rw [← hp]
  · exact (show ∀ e ∈ entities, 2 ≤ e.1.length by decide) e (List.mem_of_find?_eq_some he)

theorem findEnt_drop_le {r : List Char} {p : Char × List Char} (h : findEnt r = some p) :
    p.2.length + 2 ≤ r.length := by
  rcases findEnt_spec h with ⟨e, _, hpre, hdrop, hlen⟩
  have h1 := hpre.length_le
  rw [hdrop, List.length_drop]
  omega

theorem unescapeF_congr : ∀ n m : Nat, ∀ s : List Char,
    s.length ≤ n → s.length ≤ m → unescapeF n s = unescapeF m s := by
  intro n
  induction n with
  | zero =>
    intro m s hn _
    have : s = [] := List.eq_nil_of_length_eq_zero (Nat.le_zero.mp hn)
    subst this
    cases m <;> rfl
  | succ n ih =>
    intro m s hn hm
    cases s with
    | nil => cases m <;> rfl
    | cons c r =>
      cases m with
      | zero => exact absurd hm (by simp)
      | succ m =>
        have hr : r.length ≤ n := by simpa using hn
        have hr' : r.length ≤ m := by simpa using hm
        simp only [unescapeF]
        by_cases hc : c = '&'
        · cases hf : findEnt r with
          | none =>
            simp only [if_pos hc, hf]
            exact congrArg _ (ih m r hr hr')
          | some p =>
            simp only [if_pos hc, hf]
            have hp2 := findEnt_drop_le hf
            exact congrArg _ (ih m p.2 (by omega) (by omega))
        · simp only [if_neg hc]
          exact congrArg _ (ih m r hr hr')

theorem unescape_cons (c : Char) (r : List Char) :
    unescape (c :: r) =
      if c = '&' then
        match findEnt r with
        | some p => p.1 :: unescape p.2
        | none => '&' :: unescape r
      else c :: unescape r := by
  show unescapeF (r.length + 1) (c :: r) = _
  simp only [unescapeF]
  by_cases hc : c = '&'
  · cases hf : findEnt r with
    | none =>
      simp only [if_pos hc, hf]
      rfl
    | some p =>
      simp only [if_pos hc, hf]
      have hp2 := findEnt_drop_le hf
      exact congrArg _ (unescapeF_congr r.length p.2.length p.2 (by omega) le_rfl)
  · simp only [if_neg hc]
    rfl

theorem unescape_length_le_aux : ∀ n : Nat, ∀ s : List Char, s.length ≤ n →
    (unescape s).length ≤ s.length := by
  intro n
  induction n with
  | zero =>
    intro s hn
    have : s = [] := List.eq_nil_of_length_eq_zero (Nat.le_zero.mp hn)
    subst this
    simp [unescape, unescapeF]
  | succ n ih =>
    intro s hn
    cases s with
    | nil => simp [unescape, unescapeF]
    | cons c r =>
      have hr : r.length ≤ n := by simpa using hn
      rw [unescape_cons]
      by_cases hc : c = '&'
      · cases hf : findEnt r with
        | none =>
          simp only [if_pos hc, hf, List.length_cons]
          have := ih r hr
          omega
        | some p =>
          simp only [if_pos hc, hf, List.length_cons]
          have hp2 := findEnt_drop_le hf
          have := ih p.2 (by omega)
          omega
      · simp only [if_neg hc, List.length_cons]
        have := ih r hr
        omega

theorem unescape_length_le (s : List Char) : (unescape s).length ≤ s.length :=
  unescape_length_le_aux s.length s le_rfl

theorem noEntity_of_fixed_aux : ∀ n : Nat, ∀ s : List Char, s.length ≤ n →
    unescape s = s → noEntity s := by
  intro n
  induction n with
  | zero =>
    intro s hn _ q hq
    have : s = [] := List.eq_nil_of_length_eq_zero (Nat.le_zero.mp hn)
    subst this
    exact absurd (List.eq_nil_of_suffix_nil hq) (by simp)
  | succ n ih =>
    intro s hn hfix q hq
    cases s with
    | nil => exact absurd (List.eq_nil_of_suffix_nil hq) (by simp)
    | cons c r =>
      have hr : r.length ≤ n := by simpa using hn
      by_cases hc : c = '&'
      · cases hf : findEnt r with
        | some p =>
          exfalso
          have hfix' : p.1 :: unescape p.2 = c :: r := by
            rw [unescape_cons, if_pos hc, hf] at hfix
            exact hfix
          have h1 : (p.1 :: unescape p.2).length = (c :: r).length := by rw [hfix']
          have hp2 := findEnt_drop_le hf
          have := unescape_length_le p.2
          simp only [List.length_cons] at h1
          omega
        | none =>
          have hfix' : '&' :: unescape r = c :: r := by
            rw [unescape_cons, if_pos hc, hf] at hfix
            exact hfix
          have htail : unescape r = r := by
            injection hfix'
          rcases List.suffix_cons_iff.mp hq with heq | hsuf
          · have : q = r := by
              subst hc
              injection heq
            rwa [this]
          · exact ih r hr htail q hsuf
      · have hfix' : c :: unescape r = c :: r := by
          rw [unescape_cons, if_neg hc] at hfix
          exact hfix
        have htail : unescape r = r := by injection hfix'
        rcases List.suffix_cons_iff.mp hq with heq | hsuf
        · exact absurd (by injection heq with h1 _; exact h1.symm) hc
        · exact ih r hr htail q hsuf

theorem noEntity_of_fixed {s : List Char} (h : unescape s = s) : noEntity s :=
  noEntity_of_fixed_aux s.length s le_rfl h

theorem fixed_of_noEntity_aux : ∀ n : Nat, ∀ s : List Char, s.length ≤ n →
    noEntity s → unescape s = s := by
  intro n
  induction n with
  | zero =>
    intro s hn _
    have : s = [] := List.eq_nil_of_length_eq_zero (Nat.le_zero.mp hn)
    subst this
    rfl
  | succ n ih =>
    intro s hn hno
    cases s with
    | nil => rfl
    | cons c r =>
      have hr : r.length ≤ n := by simpa using hn
      have hno_r : noEntity r := fun q hq => hno q (hq.trans (List.suffix_cons c r))
      rw [unescape_cons]
      by_cases hc : c = '&'
      · have hf : findEnt r = none := by
          subst hc
          exact hno r (List.suffix_refl _)
        rw [if_pos hc, hf, ih r hr hno_r, hc]
      · rw [if_neg hc, ih r hr hno_r]

theorem fixed_of_noEntity {s : List Char} (h : noEntity s) : unescape s = s :=
  fixed_of_noEntity_aux s.length s le_rfl h

theorem entMin_cover : ∀ m ∈ entMin, ∃ e ∈ entities, m = '&' :: e.1 := by decide

theorem entities_cover :
    ∀ e ∈ entities, ∃ m ∈ entMin, m.isPrefixOf ('&' :: e.1) = true := by decide

theorem not_entMin_infix_of_noEntity {s : List Char} (h : noEntity s) :
    ∀ m ∈ entMin, ¬ m <:+: s := by
  intro m hm hinf
  obtain ⟨e, he, hme⟩ := entMin_cover m hm
  rcases List.infix_iff_prefix_suffix.mp hinf with ⟨t, hpre, hsuf⟩
  rcases hpre with ⟨u, hu⟩
  subst hme
  have ht : t = '&' :: (e.1 ++ u) := by
    rw [← hu]
    simp
  rw [ht] at hsuf
  have := h (e.1 ++ u) hsuf
  unfold findEnt at this
  rw [Option.map_eq_none'] at this
  rw [List.find?_eq_none] at this
  exact this e he (by
    simp only [ List.isPrefixOf_iff_prefix]
    exact ⟨u, rfl⟩)

theorem noEntity_of_not_entMin_occurs {s : List Char}
    (h : ∀ m ∈ entMin, ¬ m <:+: s) : noEntity s := by
  intro q hq
  cases hf : findEnt q with
  | none => rfl
  | some p =>
    exfalso
    rcases findEnt_spec hf with ⟨e, he, hpre, _, _⟩
    obtain ⟨m, hm, hcov'⟩ := entities_cover e he
    have hcov : m <+: ('&' :: e.1) := List.isPrefixOf_iff_prefix.mp hcov'
    have hmq : m <+: ('&' :: q) := hcov.trans (by
      rcases hpre with ⟨u, hu⟩
      exact ⟨u, by rw [List.cons_append, hu]⟩)
    exact h m hm (List.infix_iff_prefix_suffix.mpr ⟨'&' :: q, hmq, hq⟩)

theorem replaceAllF_id_of_no_occurrence {pat rep : List Char} :
    ∀ n s, ¬ pat <:+: s → replaceAllF pat rep n s = s := by
  intro n
  induction n with
  | zero =>
    intro s _
    rfl
  | succ n ih =>
    intro s h
    cases s with
    | nil => rfl
    | cons c r =>
      have hcond : ¬ (pat.isPrefixOf (c :: r) = true) := by
        intro hb
        exact h (List.isPrefixOf_iff_prefix.mp hb).isInfix
      simp only [replaceAllF]
      rw [if_neg hcond]
      exact congrArg _ (ih r (fun hinf => h (List.infix_cons_iff.mpr (Or.inr hinf))))

theorem replaceAll_id_of_no_occurrence {pat rep s : List Char} (h : ¬ pat <:+: s) :
    replaceAll pat rep s = s :=
  replaceAllF_id_of_no_occurrence s.length s h

theorem replaceAllF_single (a b : Char) :
    ∀ n s, s.length ≤ n →
      replaceAllF [a] [b] n s = s.map (fun c => if c = a then b else c) := by
  intro n
  induction n with
  | zero =>
    intro s h
    have : s = [] := List.eq_nil_of_length_eq_zero (Nat.le_zero.mp h)
    subst this
    rfl
  | succ n ih =>
    intro s h
    cases s with
    | nil => rfl
    | cons c r =>
      have hr : r.length ≤ n := by simpa using h
      simp only [replaceAllF, List.map_cons]
      by_cases hc : c = a
      · have hcond : ([a].isPrefixOf (c :: r)) = true := by
          simp [List.isPrefixOf, hc]
        rw [if_pos hcond, if_pos hc]
        show b :: replaceAllF [a] [b] n r = b :: _
        exact congrArg _ (ih r hr)
      · have hcond : ¬ (([a].isPrefixOf (c :: r)) = true) := by
          simp [List.isPrefixOf]
          intro hac
          exact absurd hac.symm hc
        rw [if_neg hcond, if_neg hc]
        exact congrArg _ (ih r hr)

theorem replaceAll_single (a b : Char) (s : List Char) :
    replaceAll [a] [b] s = s.map (fun c => if c = a then b else c) :=
  replaceAllF_single a b s.length s le_rfl

theorem map_eq_of_fixed_chars {hm : Char → Char} :
    ∀ {p' p : List Char}, (∀ c ∈ p, ∀ d, hm d = c → d = c) →
      p'.map hm = p → p' = p := by
  intro p'
  induction p' with
  | nil =>
    intro p _ hmap
    exact hmap
  | cons d p2 ih =>
    intro p hchar hmap
    rw [List.map_cons] at hmap
    subst hmap
    have hd : d = hm d :=
      hchar (hm d) (List.mem_cons_self _ _) d rfl
    have ht : p2 = List.map hm p2 :=
      ih (fun c hc => hchar c (List.mem_cons_of_mem _ hc)) rfl
    rw [← hd, ← ht]

theorem infix_map_pullback {hm : Char → Char} {p s : List Char}
    (hchar : ∀ c ∈ p, ∀ d, hm d = c → d = c) (hinf : p <:+: s.map hm) :
    p <:+: s := by
  rcases hinf with ⟨t, u, htu⟩
  have h1 : s.map hm = t ++ (p ++ u) := by
    rw [← htu]
    simp
  rcases List.map_eq_append_iff.mp h1 with ⟨s1, s2, hs, _, hmap2⟩
  rcases List.map_eq_append_iff.mp hmap2 with ⟨s3, s4, hs2, hmap3, _⟩
  have h3 : s3 = p := map_eq_of_fixed_chars hchar hmap3
  exact ⟨s1, s4, by rw [hs, hs2, h3]; simp⟩

theorem fixed_chars_of_ne {p : List Char} {x y : Char} (hne : ∀ c ∈ p, c ≠ y) :
    ∀ c ∈ p, ∀ d, (fun c' => if c' = x then y else c') d = c → d = c := by
  intro c hc d hd
  simp only at hd
  by_cases hdx : d = x
  · rw [if_pos hdx] at hd
    exact absurd hd (hne c hc).symm
  · rwa [if_neg hdx] at hd

theorem squeezeAux_nil (b : Bool) : squeezeWSAux b [] = [] := by
  cases b <;> rfl

theorem squeezeAux_cons_ws_true {c : Char} (r : List Char) (hc : isWS c = true) :
    squeezeWSAux true (c :: r) = squeezeWSAux true r := by
  simp [squeezeWSAux, hc]

theorem squeezeAux_cons_ws_false {c : Char} (r : List Char) (hc : isWS c = true) :
    squeezeWSAux false (c :: r) = ' ' :: squeezeWSAux true r := by
  simp [squeezeWSAux, hc]

theorem squeezeAux_cons_not_ws {c : Char} (b : Bool) (r : List Char) (hc : isWS c = false) :
    squeezeWSAux b (c :: r) = c :: squeezeWSAux false r := by
  cases b <;> simp [squeezeWSAux, hc]

theorem ws_free_prefix_squeezeAux :
    ∀ (s p : List Char), (∀ c ∈ p, isWS c = false) →
      p <+: squeezeWSAux false s → p <+: s := by
  intro s
  induction s with
  | nil =>
    intro p _ h
    rw [squeezeAux_nil] at h
    rw [List.prefix_nil.mp h]
  | cons c r ih =>
    intro p hws h
    by_cases hc : isWS c = true
    · rw [squeezeAux_cons_ws_false r hc] at h
      rcases p with _ | ⟨pc, p2⟩
      · exact List.nil_prefix
      · rcases List.cons_prefix_cons.mp h with ⟨rfl, _⟩
        exact absurd (hws ' ' (List.mem_cons_self _ _)) (by decide)
    · rw [squeezeAux_cons_not_ws false r (Bool.eq_false_iff.mpr hc)] at h
      rcases p with _ | ⟨pc, p2⟩
      · exact List.nil_prefix
      · rcases List.cons_prefix_cons.mp h with ⟨rfl, h2⟩
        exact List.cons_prefix_cons.mpr
          ⟨rfl, ih p2 (fun d hd => hws d (List.mem_cons_of_mem _ hd)) h2⟩

theorem ws_free_infix_squeezeAux :
    ∀ (s : List Char) (b : Bool) (p : List Char), p ≠ [] →
      (∀ c ∈ p, isWS c = false) → p <:+: squeezeWSAux b s → p <:+: s := by
  intro s
  induction s with
  | nil =>
    intro b p hne _ h
    rw [squeezeAux_nil] at h
    exact absurd (List.infix_nil.mp h) hne
  | cons c r ih =>
    intro b p hne hws h
    by_cases hc : isWS c = true
    · cases b with
      | true =>
        rw [squeezeAux_cons_ws_true r hc] at h
        exact List.infix_cons_iff.mpr (Or.inr (ih true p hne hws h))
      | false =>
        rw [squeezeAux_cons_ws_false r hc] at h
        rcases List.infix_cons_iff.mp h with hpre | hinf
        · rcases p with _ | ⟨pc, p2⟩
          · exact absurd rfl hne
          · rcases List.cons_prefix_cons.mp hpre with ⟨rfl, _⟩
            exact absurd (hws ' ' (List.mem_cons_self _ _)) (by decide)
        · exact List.infix_cons_iff.mpr (Or.inr (ih true p hne hws hinf))
    · rw [squeezeAux_cons_not_ws b r (Bool.eq_false_iff.mpr hc)] at h
      rcases List.infix_cons_iff.mp h with hpre | hinf
      · rcases p with _ | ⟨pc, p2⟩
        · exact absurd rfl hne
        · rcases List.cons_prefix_cons.mp hpre with ⟨rfl, h2⟩
          have h3 : p2 <+: r :=
            ws_free_prefix_squeezeAux r p2 (fun d hd => hws d (List.mem_cons_of_mem _ hd)) h2
          exact (List.cons_prefix_cons.mpr ⟨rfl, h3⟩).isInfix
      · exact List.infix_cons_iff.mpr (Or.inr (ih false p hne hws hinf))

theorem mem_squeezeAux :
    ∀ (s : List Char) (b : Bool) (c : Char),
      c ∈ squeezeWSAux b s → c ∈ s ∨ c = ' ' := by
  intro s
  induction s with
  | nil =>
    intro b c h
    rw [squeezeAux_nil] at h
    exact absurd h (List.not_mem_nil c)
  | cons d r ih =>
    intro b c h
    by_cases hd : isWS d = true
    · cases b with
      | true =>
        rw [squeezeAux_cons_ws_true r hd] at h
        rcases ih true c h with h1 | h1
        · exact Or.inl (List.mem_cons_of_mem _ h1)
        · exact Or.inr h1
      | false =>
        rw [squeezeAux_cons_ws_false r hd] at h
        rcases List.mem_cons.mp h with h1 | h1
        · exact Or.inr h1
        · rcases ih true c h1 with h2 | h2
          · exact Or.inl (List.mem_cons_of_mem _ h2)
          · exact Or.inr h2
    · rw [squeezeAux_cons_not_ws b r (Bool.eq_false_iff.mpr hd)] at h
      rcases List.mem_cons.mp h with h1 | h1
      · exact Or.inl (h1 ▸ List.mem_cons_self _ _)
      · rcases ih false c h1 with h2 | h2
        · exact Or.inl (List.mem_cons_of_mem _ h2)
        · exact Or.inr h2

theorem squeezeAux_ws_space :
    ∀ (s : List Char) (b : Bool) (c : Char),
      c ∈ squeezeWSAux b s → isWS c = true → c = ' ' := by
  intro s
  induction s with
  | nil =>
    intro b c h _
    rw [squeezeAux_nil] at h
    exact absurd h (List.not_mem_nil c)
  | cons d r ih =>
    intro b c h hws
    by_cases hd : isWS d = true
    · cases b with
      | true =>
        rw [squeezeAux_cons_ws_true r hd] at h
        exact ih true c h hws
      | false =>
        rw [squeezeAux_cons_ws_false r hd] at h
        rcases List.mem_cons.mp h with h1 | h1
        · exact h1
        · exact ih true c h1 hws
    · rw [squeezeAux_cons_not_ws b r (Bool.eq_false_iff.mpr hd)] at h
      rcases List.mem_cons.mp h with h1 | h1
      · rw [h1] at hws
        exact absurd hws hd
      · exact ih false c h1 hws

theorem squeezeAux_true_head :
    ∀ (s : List Char) (c : Char) (rest : List Char),
      squeezeWSAux true s = c :: rest → isWS c = false := by
  intro s
  induction s with
  | nil =>
    intro c rest h
    rw [squeezeAux_nil] at h
    exact absurd h (by simp)
  | cons d r ih =>
    intro c rest h
    by_cases hd : isWS d = true
    · rw [squeezeAux_cons_ws_true r hd] at h
      exact ih c rest h
    · rw [squeezeAux_cons_not_ws true r (Bool.eq_false_iff.mpr hd)] at h
      injection h with h1 _
      rw [← h1]
      exact Bool.eq_false_iff.mpr hd

theorem squeezeAux_chain :
    ∀ (s : List Char) (b : Bool),
      List.Chain' (fun a b' => ¬(isWS a = true ∧ isWS b' = true)) (squeezeWSAux b s) := by
  intro s
  induction s with
  | nil =>
    intro b
    rw [squeezeAux_nil]
    exact List.chain'_nil
  | cons d r ih =>
    intro b
    by_cases hd : isWS d = true
    · cases b with
      | true =>
        rw [squeezeAux_cons_ws_true r hd]
        exact ih true
      | false =>
        rw [squeezeAux_cons_ws_false r hd]
        rw [List.chain'_cons']
        refine ⟨?_, ih true⟩
        intro y hy
        cases hh : squeezeWSAux true r with
        | nil =>
          rw [hh] at hy
          exact absurd hy (by simp)
        | cons y0 rest =>
          rw [hh] at hy
          simp only [List.head?_cons, Option.mem_def, Option.some.injEq] at hy
          intro hpair
          rw [← hy] at hpair
          exact absurd hpair.2 (Bool.eq_false_iff.mp (squeezeAux_true_head r y0 rest hh))
    · rw [squeezeAux_cons_not_ws b r (Bool.eq_false_iff.mpr hd)]
      rw [List.chain'_cons']
      refine ⟨?_, ih false⟩
      intro y _
      exact fun hpair => absurd hpair.1 hd

theorem dropWhile_head_false {p : Char → Bool} :
    ∀ (l : List Char) (c : Char) (rest : List Char),
      l.dropWhile p = c :: rest → p c = false := by
  intro l
  induction l with
  | nil =>
    intro c rest h
    exact absurd h (by simp)
  | cons d r ih =>
    intro c rest h
    rw [List.dropWhile_cons] at h
    by_cases hd : p d = true
    · rw [if_pos hd] at h
      exact ih c rest h
    · rw [if_neg hd] at h
      injection h with h1 _
      rw [← h1]
      exact Bool.eq_false_iff.mpr hd

theorem strip_isInfixOfSelf (s : List Char) : strip s <:+: s := by
  have hA : s.dropWhile isWS <:+ s := List.dropWhile_suffix _
  have hB : strip s <+: s.dropWhile isWS := by
    rw [← List.reverse_suffix]
    unfold strip
    rw [List.reverse_reverse]
    exact List.dropWhile_suffix _
  exact hB.isInfix.trans hA.isInfix

theorem strip_head_not_ws :
    ∀ (s c : _) (rest : List Char), strip s = c :: rest → isWS c = false := by
  intro s c rest h
  have hB : strip s <+: s.dropWhile isWS := by
    rw [← List.reverse_suffix]
    unfold strip
    rw [List.reverse_reverse]
    exact List.dropWhile_suffix _
  rcases hB with ⟨u, hu⟩
  rw [h] at hu
  exact dropWhile_head_false s c (rest ++ u) (by rw [← hu]; simp)

theorem strip_getLast_not_ws :
    ∀ (s c : _), (strip s).getLast? = some c → isWS c = false := by
  intro s c h
  rw [← List.head?_reverse] at h
  have hrev : (strip s).reverse = (s.dropWhile isWS).reverse.dropWhile isWS := by
    unfold strip
    rw [List.reverse_reverse]
  rw [hrev] at h
  cases hh : (s.dropWhile isWS).reverse.dropWhile isWS with
  | nil =>
    rw [hh] at h
    exact absurd h (by simp)
  | cons c0 rest =>
    rw [hh] at h
    simp only [List.head?_cons, Option.some.injEq] at h
    rw [← h]
    exact dropWhile_head_false _ c0 rest hh

theorem strip_eq_self {y : List Char}
    (h1 : ∀ c rest, y = c :: rest → isWS c = false)
    (h2 : ∀ c, y.getLast? = some c → isWS c = false) : strip y = y := by
  have hds : y.dropWhile isWS = y := by
    cases y with
    | nil => rfl
    | cons c rest =>
      rw [List.dropWhile_cons, if_neg (by simp [h1 c rest rfl])]
  unfold strip
  rw [hds]
  have hds2 : y.reverse.dropWhile isWS = y.reverse := by
    cases hy : y.reverse with
    | nil => rfl
    | cons c rest =>
      have hc : y.getLast? = some c := by
        rw [← List.head?_reverse, hy]
        rfl
      rw [List.dropWhile_cons, if_neg (by simp [h2 c hc])]
  rw [hds2, List.reverse_reverse]

theorem squeezeAux_eq_self :
    ∀ (n : Nat) (y : List Char), y.length ≤ n →
      (∀ c ∈ y, isWS c = true → c = ' ') →
      List.Chain' (fun a b' => ¬(isWS a = true ∧ isWS b' = true)) y →
      (∀ c rest, y = c :: rest → isWS c = false) →
      squeezeWSAux false y = y := by
  intro n
  induction n with
  | zero =>
    intro y hlen _ _ _
    rw [List.eq_nil_of_length_eq_zero (Nat.le_zero.mp hlen)]
    rfl
  | succ n ih =>
    intro y hlen hsp hch hhd
    cases y with
    | nil => rfl
    | cons c r =>
      have hc : isWS c = false := hhd c r rfl
      rw [squeezeAux_cons_not_ws false r hc]
      congr 1
      cases r with
      | nil => rfl
      | cons d r2 =>
        by_cases hd : isWS d = true
        · have hd' : d = ' ' := hsp d (List.mem_cons_of_mem _ (List.mem_cons_self _ _)) hd
          subst hd'
          rw [squeezeAux_cons_ws_false r2 hd]
          congr 1
          have hch2 := (List.chain'_cons'.mp hch).2
          have hr2hd : ∀ e rest2, r2 = e :: rest2 → isWS e = false := by
            intro e rest2 he
            have hp := (List.chain'_cons'.mp hch2).1 e (by rw [he]; rfl)
            by_cases hwe : isWS e = true
            · exact absurd ⟨hd, hwe⟩ hp
            · exact Bool.eq_false_iff.mpr hwe
          have hsq : squeezeWSAux true r2 = squeezeWSAux false r2 := by
            cases r2 with
            | nil => rfl
            | cons e rest2 =>
              rw [squeezeAux_cons_not_ws true rest2 (hr2hd e rest2 rfl),
                  squeezeAux_cons_not_ws false rest2 (hr2hd e rest2 rfl)]
          rw [hsq]
          refine ih r2 ?_ ?_ ?_ hr2hd
          · simp only [List.length_cons] at hlen
            omega
          · exact fun x hx => hsp x (List.mem_cons_of_mem _ (List.mem_cons_of_mem _ hx))
          · exact (List.chain'_cons'.mp hch2).2
        · refine ih (d :: r2) ?_ ?_ ?_ ?_
          · simp only [List.length_cons] at hlen ⊢
            omega
          · exact fun x hx => hsp x (List.mem_cons_of_mem _ hx)
          · exact (List.chain'_cons'.mp hch).2
          · intro e rest2 he
            injection he with he1 _
            rw [← he1]
            exact Bool.eq_false_iff.mpr hd

theorem mem_strip {s : List Char} {c : Char} (h : c ∈ strip s) : c ∈ s :=
  (strip_isInfixOfSelf s).subset h

theorem chain'_of_infixOf {R : Char → Char → Prop} {p s : List Char}
    (hch : List.Chain' R s) (h : p <:+: s) : List.Chain' R p := by
  rcases h with ⟨t, u, htu⟩
  rw [← htu] at hch
  exact (List.chain'_append.mp (List.chain'_append.mp hch).1).2.1

theorem entMin_chars : ∀ m ∈ entMin, ∀ c ∈ m, c ≠ '《' ∧ c ≠ '》' ∧ isWS c = false := by
  decide

theorem entMin_ne_nil : ∀ m ∈ entMin, m ≠ [] := by decide

theorem not_pat_occurs_of_entMin {Y : List Char} (hY : ∀ m ∈ entMin, ¬ m <:+: Y)
    (m : List Char) {pat : List Char} (hm : m ∈ entMin) (hpre : m.isPrefixOf pat = true) :
    ¬ pat <:+: Y :=
  fun hinf => hY m hm (( List.isPrefixOf_iff_prefix.mp hpre).isInfix.trans hinf)

theorem mem_double_angle_map {z : List Char} :
    ∀ c ∈ (z.map angleMap1).map angleMap2, c ≠ '<' ∧ c ≠ '>' := by
  intro c hc
  rcases List.mem_map.mp hc with ⟨d, hd, rfl⟩
  rcases List.mem_map.mp hd with ⟨e, _, rfl⟩
  unfold angleMap1 angleMap2
  constructor <;> split_ifs <;> simp_all

theorem entMin_double_angle_pullback {F : List Char}
    (hFm : ∀ m ∈ entMin, ¬ m <:+: F) :
    ∀ m ∈ entMin, ¬ m <:+: (F.map angleMap1).map angleMap2 := by
  intro m hm hinf
  have h2 : m <:+: F.map angleMap1 :=
    infix_map_pullback (fixed_chars_of_ne (fun c hc => (entMin_chars m hm c hc).2.1)) hinf
  exact hFm m hm
    (infix_map_pullback (fixed_chars_of_ne (fun c hc => (entMin_chars m hm c hc).1)) h2)

theorem fold_replacements_of_fixed {F : List Char}
    (hFm : ∀ m ∈ entMin, ¬ m <:+: F) :
    replacements.foldl (fun acc pr => replaceAll pr.1 pr.2 acc) F
      = (F.map angleMap1).map angleMap2 := by
  have hpull := entMin_double_angle_pullback hFm
  simp only [replacements, List.foldl_cons, List.foldl_nil]
  rw [replaceAll_single '<' '《', replaceAll_single '>' '》',
      show (fun c => if c = '<' then '《' else c) = angleMap1 from rfl,
      show (fun c => if c = '>' then '》' else c) = angleMap2 from rfl,
      replaceAll_id_of_no_occurrence
        (not_pat_occurs_of_entMin hpull "&lt".data (by decide) (by decide)),
      replaceAll_id_of_no_occurrence
        (not_pat_occurs_of_entMin hpull "&gt".data (by decide) (by decide)),
      replaceAll_id_of_no_occurrence
        (not_pat_occurs_of_entMin hpull "&quot".data (by decide) (by decide)),
      replaceAll_id_of_no_occurrence
        (not_pat_occurs_of_entMin hpull "&apos;".data (by decide) (by decide)),
      replaceAll_id_of_no_occurrence
        (not_pat_occurs_of_entMin hpull "&nbsp".data (by decide) (by decide)),
      replaceAll_id_of_no_occurrence
        (not_pat_occurs_of_entMin hpull "&amp".data (by decide) (by decide))]

theorem repair_idem_of_loop_fixed (s : List Char)
    (hfix : unescape (decodeLoop 10 s) = decodeLoop 10 s) :
    fix_html_entities (fix_html_entities s) = fix_html_entities s := by
  by_cases hs : s = []
  · subst hs
    rfl
  have hFm : ∀ m ∈ entMin, ¬ m <:+: decodeLoop 10 s :=
    not_entMin_infix_of_noEntity (noEntity_of_fixed hfix)
  have hfs : fix_html_entities s
      = strip (squeezeWS (((decodeLoop 10 s).map angleMap1).map angleMap2)) := by
    simp only [fix_html_entities, if_neg hs]
    rw [fold_replacements_of_fixed hFm]
    rfl
  set Y := ((decodeLoop 10 s).map angleMap1).map angleMap2 with hYdef
  set w := strip (squeezeWS Y) with hwdef
  -- no entity generator occurs in w
  have hwm : ∀ m ∈ entMin, ¬ m <:+: w := by
    intro m hm hinf
    have h1 : m <:+: squeezeWS Y := hinf.trans (strip_isInfixOfSelf _)
    have h2 : m <:+: Y :=
      ws_free_infix_squeezeAux Y false m (entMin_ne_nil m hm)
        (fun c hc => (entMin_chars m hm c hc).2.2) h1
    exact entMin_double_angle_pullback hFm m hm h2
  have hwfix : unescape w = w :=
    fixed_of_noEntity (noEntity_of_not_entMin_occurs hwm)
  -- no angle bracket occurs in w
  have hwang : ∀ c ∈ w, c ≠ '<' ∧ c ≠ '>' := by
    intro c hc
    rcases mem_squeezeAux Y false c ((strip_isInfixOfSelf _).subset hc) with h1 | h1
    · exact mem_double_angle_map c h1
    · subst h1
      exact ⟨by decide, by decide⟩
  -- the replacement pass fixes w
  have hw8 : replacements.foldl (fun acc pr => replaceAll pr.1 pr.2 acc) w = w := by
    simp only [replacements, List.foldl_cons, List.foldl_nil]
    rw [replaceAll_id_of_no_occurrence
          (fun hinf => (hwang '<' (hinf.subset (by decide))).1 rfl),
        replaceAll_id_of_no_occurrence
          (fun hinf => (hwang '>' (hinf.subset (by decide))).2 rfl),
        replaceAll_id_of_no_occurrence
          (not_pat_occurs_of_entMin hwm "&lt".data (by decide) (by decide)),
        replaceAll_id_of_no_occurrence
          (not_pat_occurs_of_entMin hwm "&gt".data (by decide) (by decide)),
        replaceAll_id_of_no_occurrence
          (not_pat_occurs_of_entMin hwm "&quot".data (by decide) (by decide)),
        replaceAll_id_of_no_occurrence
          (not_pat_occurs_of_entMin hwm "&apos;".data (by decide) (by decide)),
        replaceAll_id_of_no_occurrence
          (not_pat_occurs_of_entMin hwm "&nbsp".data (by decide) (by decide)),
        replaceAll_id_of_no_occurrence
          (not_pat_occurs_of_entMin hwm "&amp".data (by decide) (by decide))]
  -- the whitespace pass fixes w
  have hsqw : squeezeWS w = w := by
    show squeezeWSAux false w = w
    refine squeezeAux_eq_self w.length w le_rfl ?_ ?_ ?_
    · exact fun c hc hws =>
        squeezeAux_ws_space Y false c ((strip_isInfixOfSelf _).subset hc) hws
    · exact chain'_of_infixOf (squeezeAux_chain Y false) (strip_isInfixOfSelf _)
    · exact strip_head_not_ws (squeezeWS Y)
  have hstw : strip w = w :=
    strip_eq_self (fun c rest h => strip_head_not_ws (squeezeWS Y) c rest (by rw [← hwdef, h]))
      (fun c h => strip_getLast_not_ws (squeezeWS Y) c (by rw [← hwdef, h]))
  rw [hfs]
  by_cases hw : w = []
  · rw [hw]
    rfl
  · simp only [fix_html_entities, if_neg hw]
    rw [decodeLoop_of_fixed hwfix, hw8]
    show strip (squeezeWS w) = w
    rw [hsqw, hstw]

/-- C6 (amended): the decode phase performs at most 10 decode passes,
stopping at the first fixed point — whenever the `k`-th decode iterate,
`k ≤ 10`, is already stable, the loop returns exactly that iterate (the
cap does not force a fixed point on deeper-nested input: see the
counterexample); and on every input whose decode loop does exit at a
fixed point, repair is idempotent:
`fix_html_entities (fix_html_entities x) = fix_html_entities x`. -/
theorem C6_markup_repair_amended :
    (∀ (s : List Char) (k : Nat), k ≤ 10 →
       unescape^[k + 1] s = unescape^[k] s → decodeLoop 10 s = unescape^[k] s) ∧
    (∀ s : List Char, unescape (decodeLoop 10 s) = decodeLoop 10 s →
       fix_html_entities (fix_html_entities s) = fix_html_entities s) :=
  ⟨fun s k hk h => decodeLoop_reaches_fixed 10 k s hk h,
   repair_idem_of_loop_fixed⟩

theorem C6_markup_repair_amended_witness :
    (unescape (decodeLoop 10 "&amp;lt;剧情 介绍".data)
       = decodeLoop 10 "&amp;lt;剧情 介绍".data) ∧
    fix_html_entities (fix_html_entities "&amp;lt;剧情 介绍".data)
      = fix_html_entities "&amp;lt;剧情 介绍".data :=
  ⟨by decide, C6_markup_repair_amended.2 _ (by decide)⟩

/-- C6, as stated, is false: on input of entity-nesting depth deeper than
the cap (`"&"` + 11 × `"amp;"` + `"lt;"`), the decode loop's 10 iterations
do not reach a fixed point, and repair is not idempotent there:
`repair x = "&lt;"` but `repair (repair x) = "《"`. -/
theorem C6_counterexample :
    unescape (decodeLoop 10
        "&amp;amp;amp;amp;amp;amp;amp;amp;amp;amp;amp;lt;".data)
      ≠ decodeLoop 10 "&amp;amp;amp;amp;amp;amp;amp;amp;amp;amp;amp;lt;".data ∧
    fix_html_entities (fix_html_entities
        "&amp;amp;amp;amp;amp;amp;amp;amp;amp;amp;amp;lt;".data)
      ≠ fix_html_entities "&amp;amp;amp;amp;amp;amp;amp;amp;amp;amp;amp;lt;".data :=
  ⟨by decide, by decide⟩

theorem C9_colon_insensitive_title_keys_witness :
    ("新闻:30分".data.filter (fun c => !(c == ':' || c == '：'))
       = "新闻30分".data.filter (fun c => !(c == ':' || c == '：'))) ∧
    normalize "新闻:30分".data = normalize "新闻30分".data :=
  ⟨by decide,
   (C9_colon_insensitive_title_keys "新闻:30分".data "新闻30分".data (by decide)).1⟩

end SDEPG
